import Mathlib

/-
Verification of the read-reassignment and coverage-normalization engine of
PhyloCNV (src/phylo_cnv/phylo_cnv.py) against its design specification.

The Python source is shallowly embedded: pysam alignment records become the
AlnRec structure, python lists become List, python dicts become
insertion-ordered association lists (List (key, value)) with an
update-or-append operation mirroring dict assignment, floats become ℚ, and
code that can raise at runtime (IndexError on pe_read[1], ZeroDivisionError)
returns Option, with none modelling the raise.
-/

set_option linter.unusedVariables false

namespace PhyloCNV

/-- Embedding of a pysam alignment record: exactly the fields the engine
reads (query_name, is_paired, mate_is_unmapped, is_read1, is_read2,
query_length and the NM edit-distance tag). -/
structure AlnRec where
  query_name : String
  is_paired : Bool
  mate_is_unmapped : Bool
  is_read1 : Bool
  is_read2 : Bool
  query_length : Nat
  nm : Nat
  deriving Repr, DecidableEq

/-- Condition under which the fetch_reads loop yields an alignment on its own
(the three single-yield branches of the source: not paired, or paired with the
mate unmapped and flagged read1, or paired with the mate unmapped and flagged
read2); any other record is buffered for pairing. -/
def yieldsSingle (a : AlnRec) : Bool :=
  !a.is_paired || (a.mate_is_unmapped && a.is_read1) || (a.mate_is_unmapped && a.is_read2)

/-- Loop of fetch_reads: the pe_read buffer never holds more than one record
(the source yields and clears it as soon as its length reaches 2), so it is
modelled as Option AlnRec. -/
def fetchReadsAux : Option AlnRec → List AlnRec → List (List AlnRec)
  | _, [] => []
  | buf, a :: rest =>
    if yieldsSingle a then [a] :: fetchReadsAux buf rest
    else
      match buf with
      | none => fetchReadsAux (some a) rest
      | some b => [b, a] :: fetchReadsAux none rest

/-- Embedding of fetch_reads: yields paired-end read units from one alignment
stream. -/
def fetch_reads (s : List AlnRec) : List (List AlnRec) :=
  fetchReadsAux none s

/-- Grouping of a list into consecutive two-element chunks; a trailing odd
element is dropped.  Used to state what fetch_reads does with buffered
mapped-mate paired records. -/
def chunk2 : List α → List (List α)
  | a :: b :: rest => [a, b] :: chunk2 rest
  | _ => []

/-- Embedding of compute_aln_score.  The source indexes pe_read[0]
unconditionally and pe_read[1] in the full-pair branch; none models the
IndexError raised when the indexed record is absent. -/
def compute_aln_score : List AlnRec → Option Int
  | [] => none
  | r0 :: rest =>
    if !r0.is_paired then
      some ((r0.query_length : Int) - (r0.nm : Int))
    else if r0.mate_is_unmapped then
      some ((r0.query_length : Int) - (r0.nm : Int))
    else
      match rest with
      | [] => none
      | r1 :: _ =>
        some (((r0.query_length : Int) - (r0.nm : Int))
              + ((r1.query_length : Int) - (r1.nm : Int)))

/-- Branch structure of compute_perc_id: the length and edit distance the
source accumulates before its final division, with none modelling the
IndexError on a missing mate. -/
def percIdParts : List AlnRec → Option (Nat × Nat)
  | [] => none
  | r0 :: rest =>
    if !r0.is_paired then
      some (r0.query_length, r0.nm)
    else if r0.mate_is_unmapped then
      some (r0.query_length, r0.nm)
    else
      match rest with
      | [] => none
      | r1 :: _ => some (r0.query_length + r1.query_length, r0.nm + r1.nm)

/-- Embedding of compute_perc_id: 100 * (length - edit) / float(length);
none additionally models the ZeroDivisionError the source hits when the
accumulated length is zero. -/
def compute_perc_id (pe : List AlnRec) : Option ℚ :=
  match percIdParts pe with
  | none => none
  | some (len, edit) =>
    if len = 0 then none
    else some (100 * ((len : ℚ) - (edit : ℚ)) / (len : ℚ))

/-- Concrete mate-1 record of the worked example of the spec: query length
100, edit distance 2, mate mapped. -/
def exMate1 : AlnRec :=
  { query_name := "r1", is_paired := true, mate_is_unmapped := false,
    is_read1 := true, is_read2 := false, query_length := 100, nm := 2 }

/-- Concrete mate-2 record of the worked example of the spec: query length
100, edit distance 3, mate mapped. -/
def exMate2 : AlnRec :=
  { query_name := "r1", is_paired := true, mate_is_unmapped := false,
    is_read1 := false, is_read2 := true, query_length := 100, nm := 3 }

/-- Concrete single-end record with query length zero, used to exhibit the
division by zero in compute_perc_id. -/
def zeroLenRec : AlnRec :=
  { query_name := "r0", is_paired := false, mate_is_unmapped := false,
    is_read1 := false, is_read2 := false, query_length := 0, nm := 0 }

/- ### BestHitResolver (find_best_hits and resolve_ties) -/

/-- Hit stored per read id by find_best_hits: the best score seen so far and
the dict cluster_id -> read-pair unit of the alternatives achieving it. -/
structure Hit where
  score : Int
  aln : List (String × List AlnRec)
  deriving Repr, DecidableEq

/-- Dict assignment d[k] = v on an insertion-ordered association list:
replaces the value of an existing key in place, appends a missing key at the
end, exactly as a python dict behaves. -/
def upsert (k : String) (v : α) : List (String × α) → List (String × α)
  | [] => [(k, v)]
  | (k1, v1) :: rest =>
    if k1 = k then (k, v) :: rest else (k1, v1) :: upsert k v rest

/-- One iteration of the read loop of find_best_hits for the unit pe_read of
cluster cluster_id: compute score and percent identity, discard the
alignment when the percent identity is below the threshold, and otherwise
store, replace or extend the Hit of its query name; none models the
exception the source raises on a malformed unit (empty, missing mate or
zero accumulated length). -/
def processAln (pid_min : ℚ) (cluster_id : String)
    (best_hits : List (String × Hit)) (pe_read : List AlnRec) :
    Option (List (String × Hit)) :=
  match pe_read with
  | [] => none
  | r0 :: _ =>
    match compute_aln_score pe_read, compute_perc_id pe_read with
    | some score, some pid =>
      some (if pid < pid_min then best_hits
        else
          match best_hits.lookup r0.query_name with
          | none =>
            upsert r0.query_name { score := score, aln := [(cluster_id, pe_read)] }
              best_hits
          | some hit =>
            if hit.score < score then
              upsert r0.query_name { score := score, aln := [(cluster_id, pe_read)] }
                best_hits
            else if score = hit.score then
              upsert r0.query_name
                { score := hit.score, aln := upsert cluster_id pe_read hit.aln }
                best_hits
            else best_hits)
    | _, _ => none

/-- Pure form of processAln, agreeing with it on well-formed units. -/
def processAlnP (pid_min : ℚ) (cluster_id : String)
    (best_hits : List (String × Hit)) (pe_read : List AlnRec) :
    List (String × Hit) :=
  match pe_read with
  | [] => best_hits
  | r0 :: _ =>
    match compute_aln_score pe_read, compute_perc_id pe_read with
    | some score, some pid =>
      if pid < pid_min then best_hits
      else
        match best_hits.lookup r0.query_name with
        | none =>
          upsert r0.query_name { score := score, aln := [(cluster_id, pe_read)] }
            best_hits
        | some hit =>
          if hit.score < score then
            upsert r0.query_name { score := score, aln := [(cluster_id, pe_read)] }
              best_hits
          else if score = hit.score then
            upsert r0.query_name
              { score := hit.score, aln := upsert cluster_id pe_read hit.aln }
              best_hits
          else best_hits
    | _, _ => best_hits

/-- Loop of find_best_hits over the candidate genome clusters and each
cluster's read-pair units for one batch (the tax-mask pre-filter is off and
the reference-id bookkeeping is omitted: neither is part of the claims);
this is the read-id -> Hit dict the source builds just before resolving
ties. -/
def best_hits_scan (pid_min : ℚ)
    (clusters : List (String × List (List AlnRec))) :
    Option (List (String × Hit)) :=
  clusters.foldlM
    (fun best c => c.2.foldlM (fun b pe => processAln pid_min c.1 b pe) best) []

/-- Alignment stream of one batch flattened to processing order: one
(cluster_id, unit) pair per unit, clusters outermost. -/
def flatAlns (clusters : List (String × List (List AlnRec))) :
    List (String × List AlnRec) :=
  clusters.flatMap (fun c => c.2.map (fun pe => (c.1, pe)))

/-- Pure form of the scan, as a fold over the flattened stream. -/
def scanP (pid_min : ℚ) (xs : List (String × List AlnRec))
    (init : List (String × Hit)) : List (String × Hit) :=
  xs.foldl (fun b x => processAlnP pid_min x.1 b x.2) init

/-- Well-formedness of a read-pair unit: its percent identity is defined
(the unit is nonempty, not missing a mapped mate, and of positive
accumulated length), so scoring it raises nothing. -/
def wfUnit (pe : List AlnRec) : Bool :=
  (compute_perc_id pe).isSome

/-- Query name a unit is keyed under: pe_read[0].query_name. -/
def unitQuery : List AlnRec → Option String
  | [] => none
  | r0 :: _ => some r0.query_name

/-- Survival of the percent-identity filter of find_best_hits. -/
def alnPass (pid_min : ℚ) (pe : List AlnRec) : Bool :=
  match compute_perc_id pe with
  | none => false
  | some p => !(p < pid_min)

/-- Score of a well-formed unit. -/
def alnScore (pe : List AlnRec) : Int :=
  (compute_aln_score pe).getD 0

/-- Alignments of a flattened stream that carry query name q and survive
the percent-identity filter, in processing order. -/
def relevantFilter (pid_min : ℚ) (q : String)
    (xs : List (String × List AlnRec)) : List (String × List AlnRec) :=
  xs.filter (fun x => decide (unitQuery x.2 = some q) && alnPass pid_min x.2)

/-- Alignments of one batch that carry query name q and survive the
percent-identity filter. -/
def relevantAlns (pid_min : ℚ) (q : String)
    (clusters : List (String × List (List AlnRec))) :
    List (String × List AlnRec) :=
  relevantFilter pid_min q (flatAlns clusters)

/-- Invariant tying the Hit stored for one read id to the list L of its
filter-surviving alignments processed so far: the stored score is the
maximum score of L, the stored alternatives are alignments of L achieving
that maximum, every cluster of L achieving the maximum is a stored key, and
the stored keys are distinct and nonempty. -/
def HitInv (L : List (String × List AlnRec)) : Option Hit → Prop
  | none => L = []
  | some hit =>
      (L.map (fun x => alnScore x.2)).maximum = (hit.score : Int)
      ∧ (∀ c pe, (c, pe) ∈ hit.aln → (c, pe) ∈ L ∧ alnScore pe = hit.score)
      ∧ (∀ x ∈ L, alnScore x.2 = hit.score → ∃ w, (x.1, w) ∈ hit.aln)
      ∧ (hit.aln.map Prod.fst).Nodup
      ∧ hit.aln ≠ []

/-- Inverse-CDF selection modelling np.random.choice with probability vector
probs: with u uniform on [0,1), index i is selected exactly when u falls in
the half-open window of width probs[i] that starts at the sum of the earlier
entries. -/
def chooseIdx (probs : List ℚ) (u : ℚ) : Nat :=
  match probs with
  | [] => 0
  | p :: rest => if u < p then 0 else chooseIdx rest (u - p) + 1

/-- Body of resolve_ties for one read: a Hit with a single alternative is
assigned that cluster directly; with several, one cluster is drawn with the
abundance weights normalized over the tied set; none models the
empty-alternatives case (unreachable from find_best_hits) and the
ZeroDivisionError when the tied abundances sum to zero. -/
def resolveHit (cluster_to_abun : String → ℚ) (u : ℚ) (rec : Hit) :
    Option (String × List AlnRec) :=
  match rec.aln with
  | [] => none
  | [single] => some single
  | alns =>
    let abunds := alns.map (fun x => cluster_to_abun x.1)
    if abunds.sum = 0 then none
    else
      let probs := abunds.map (fun a => a / abunds.sum)
      match alns[chooseIdx probs u]? with
      | none => none
      | some chosen => some chosen

/-- Embedding of resolve_ties: maps every stored Hit to its assignment,
drawing an independent uniform value u q for each read id. -/
def resolve_ties (cluster_to_abun : String → ℚ) (u : String → ℚ)
    (best_hits : List (String × Hit)) :
    List (String × Option (String × List AlnRec)) :=
  best_hits.map (fun x => (x.1, resolveHit cluster_to_abun (u x.1) x.2))

/-- Composition performed by find_best_hits: build the best-hits dict for
the batch, then resolve ties with the cluster abundances. -/
def find_best_hits (pid_min : ℚ) (cluster_to_abun : String → ℚ)
    (u : String → ℚ) (clusters : List (String × List (List AlnRec))) :
    Option (List (String × Option (String × List AlnRec))) :=
  (best_hits_scan pid_min clusters).map (resolve_ties cluster_to_abun u)

/-- Concrete single-end record of read r1 with score 190 and percent
identity 95. -/
def bhRecA : AlnRec :=
  { query_name := "r1", is_paired := false, mate_is_unmapped := false,
    is_read1 := false, is_read2 := false, query_length := 200, nm := 10 }

/-- Concrete single-end record of read r1 with score 195 and percent
identity 97.5. -/
def bhRecB : AlnRec :=
  { query_name := "r1", is_paired := false, mate_is_unmapped := false,
    is_read1 := false, is_read2 := false, query_length := 200, nm := 5 }

/-- Concrete batch: cluster A holds the score-190 alignment of read r1 and
cluster B the score-195 alignment. -/
def bhClusters : List (String × List (List AlnRec)) :=
  [("A", [[bhRecA]]), ("B", [[bhRecB]])]

/-- Concrete two-way tie of read r1 between clusters A and B. -/
def tieHit : Hit :=
  { score := 190, aln := [("A", [bhRecA]), ("B", [bhRecA])] }

/-- Concrete cluster priors: abundance 1/4 for cluster A and 3/4 for any
other cluster. -/
def abunW : String → ℚ := fun s => if s = "A" then 1 / 4 else 3 / 4

/- ### CoverageAggregator (compute_pangenome_coverage) -/

/-- Record of one line of the bed coverage output, restricted to the three
fields the aggregation reads: the pangene id, the read count and the gene
length. -/
structure BedRec where
  pangene_id : String
  reads : Nat
  gene_length : Nat
  deriving Repr, DecidableEq

/-- Accumulation of one overlap record into the defaultdict(float) coverage
map: coverage[pangene_id] += reads * read_length / gene_length, with none
modelling the ZeroDivisionError on a zero gene length. -/
def accumBedRec (read_length : ℚ) (cov : String → ℚ) (r : BedRec) :
    Option (String → ℚ) :=
  if r.gene_length = 0 then none
  else some (fun g =>
    if g = r.pangene_id then
      cov g + (r.reads : ℚ) * read_length / (r.gene_length : ℚ)
    else cov g)

/-- Embedding of the aggregation loop of compute_pangenome_coverage over the
parsed coverage records of one batch (the invocation of the external bed
coverage tool is outside the engine). -/
def compute_pangenome_coverage (read_length : ℚ) (recs : List BedRec)
    (cov : String → ℚ) : Option (String → ℚ) :=
  recs.foldlM (accumBedRec read_length) cov

/-- Pure form of the per-record accumulation, agreeing with accumBedRec
whenever the gene length is positive. -/
def accumBedRecP (read_length : ℚ) (cov : String → ℚ) (r : BedRec) :
    String → ℚ :=
  fun g =>
    if g = r.pangene_id then
      cov g + (r.reads : ℚ) * read_length / (r.gene_length : ℚ)
    else cov g

/-- Pure form of the aggregation loop. -/
def pangenomeCovP (read_length : ℚ) (recs : List BedRec)
    (cov : String → ℚ) : String → ℚ :=
  recs.foldl (accumBedRecP read_length) cov

/-- Zero coverage map, the state of the defaultdict(float) before any batch
is folded in. -/
def covZero : String → ℚ := fun _ => 0

/-- Concrete coverage record: pangene g, 2 reads, gene length 50. -/
def bedR1 : BedRec := { pangene_id := "g", reads := 2, gene_length := 50 }

/-- Concrete coverage record: pangene g, 1 read, gene length 50. -/
def bedR2 : BedRec := { pangene_id := "g", reads := 1, gene_length := 50 }

/- ### MarkerNormalizer (write_pangene_coverage) -/

/-- Embedding of write_pangene_coverage without the file handling: one row
(pangene, coverage, copy number) per pangene key in sorted order, where the
copy number is coverage over the marker baseline if the baseline is positive
and 0 otherwise. -/
def write_pangene_coverage (pangene_to_cov : List (String × ℚ))
    (phyeco_cov : ℚ) : List (String × ℚ × ℚ) :=
  (List.insertionSort (fun a b => a ≤ b) (pangene_to_cov.map Prod.fst)).map
    (fun pangene =>
      let cov := (pangene_to_cov.lookup pangene).getD 0
      (pangene, cov, if phyeco_cov > 0 then cov / phyeco_cov else 0))

/- ### ConsensusCaller (parse_vcf) -/

/-- Output record of parse_vcf for one pileup line; NA is none for the
frequency and the literal string NA for the allele fields, as the source
writes them. -/
structure VcfRec where
  ref_id : String
  ref_pos : String
  ref_allele : String
  alt_allele : String
  cons_allele : String
  count_alleles : Nat
  depth : Nat
  count_ref : Nat
  count_alt : Nat
  ref_freq : Option ℚ
  deriving Repr, DecidableEq

/-- Embedding of the per-line body of parse_vcf for one non-header pileup
line: field 0 (reference id), field 1 (position), field 3 (reference
allele), field 4 already split on its commas (the alternate-allele list from
which one sentinel marker is erased), and the integers of the I16 entry of
the info field, of which the source keeps the first four. -/
def parse_vcf_line (refId refPos refAllele : String)
    (altField : List String) (i16 : List Nat) : VcfRec :=
  let alt_alleles := altField.erase "<X>"
  let count_alleles := 1 + alt_alleles.length
  let counts := i16.take 4
  let cons_allele :=
    if counts.sum = 0 then "NA"
    else if (counts.drop 2).sum ≤ (counts.take 2).sum then refAllele
    else if alt_alleles.length = 0 then "NA"
    else alt_alleles.headD ""
  { ref_id := refId, ref_pos := refPos, ref_allele := refAllele,
    alt_allele := if 1 < count_alleles then alt_alleles.headD "" else "NA",
    cons_allele := cons_allele,
    count_alleles := count_alleles,
    depth := counts.sum,
    count_ref := (counts.take 2).sum,
    count_alt := (counts.drop 2).sum,
    ref_freq := if counts.sum = 0 then none
      else some (((counts.take 2).sum : ℚ) / (counts.sum : ℚ)) }

/-- Consensus-allele decision exactly as the specification words it, for
comparison with the source embedding: first matching rule of depth zero
gives NA, reference count at least alternate count gives the reference
allele, an empty listed-alternate set gives NA, otherwise the first listed
alternate. -/
def specConsensus (depth ref_count alt_count : Nat) (refAllele : String)
    (alts : List String) : String :=
  if depth = 0 then "NA"
  else if alt_count ≤ ref_count then refAllele
  else if alts = [] then "NA"
  else alts.headD "NA"

/- ### Read-length estimation (get_read_length) -/

/-- Per-file sampling loop of get_read_length: enumerate one bam file's
records and, at each record, stop if the enumeration index has reached
max_reads = 50000 and collect the query length otherwise.  The index resets
for every file of the bam directory. -/
def sampleLengths (index : Nat) : List Nat → List Nat
  | [] => []
  | len :: rest => if index = 50000 then [] else len :: sampleLengths (index + 1) rest

/-- Embedding of get_read_length over the query-length streams of the files
of the bam directory: collect the per-file samples into one list and return
its numpy mean, with none modelling the NaN of np.mean on an empty list. -/
def get_read_length (files : List (List Nat)) : Option ℚ :=
  let read_lengths := files.flatMap (fun f => sampleLengths 0 f)
  if read_lengths = [] then none
  else some ((read_lengths.map (fun n : Nat => (n : ℚ))).sum / (read_lengths.length : ℚ))

end PhyloCNV

namespace PhyloCNV

/- ### Lemmas on fetch_reads -/

theorem fetchReadsAux_spec (s : List AlnRec) : ∀ (buf : Option AlnRec),
    (∀ b, buf = some b → yieldsSingle b = false) →
    ((fetchReadsAux buf s).filter (fun u => u.length == 1)).flatten
        = s.filter (fun a => yieldsSingle a)
    ∧ (fetchReadsAux buf s).filter (fun u => u.length == 2)
        = chunk2 (buf.toList ++ s.filter (fun a => !yieldsSingle a))
    ∧ ∀ u ∈ fetchReadsAux buf s,
        (∃ a, u = [a] ∧ yieldsSingle a = true ∧ a ∈ s)
        ∨ ∃ b c, u = [b, c] ∧ yieldsSingle b = false ∧ yieldsSingle c = false := by
  induction s with
  | nil =>
    intro buf hbuf
    refine ⟨rfl, ?_, by simp [fetchReadsAux]⟩
    cases buf with
    | none => rfl
    | some b => rfl
  | cons a rest ih =>
    intro buf hbuf
    by_cases ha : yieldsSingle a = true
    · have h := ih buf hbuf
      refine ⟨?_, ?_, ?_⟩
      · simp only [fetchReadsAux, ha, if_pos]
        simpa [List.filter, ha] using h.1
      · simp only [fetchReadsAux, ha, if_pos]
        simpa [List.filter, ha] using h.2.1
      · intro u hu
        simp only [fetchReadsAux, ha, if_pos, List.mem_cons] at hu
        rcases hu with rfl | hu
        · exact Or.inl ⟨a, rfl, ha, by simp⟩
        · rcases h.2.2 u hu with ⟨x, hx1, hx2, hx3⟩ | hpair
          · exact Or.inl ⟨x, hx1, hx2, by simp [hx3]⟩
          · exact Or.inr hpair
    · have ha' : yieldsSingle a = false := by simpa using ha
      cases buf with
      | none =>
        have h := ih (some a) (by intro b hb; cases hb; exact ha')
        refine ⟨?_, ?_, ?_⟩
        · simp only [fetchReadsAux, ha', Bool.false_eq_true, if_neg]
          simpa [List.filter, ha'] using h.1
        · simp only [fetchReadsAux, ha', Bool.false_eq_true, if_neg]
          simpa [List.filter, ha'] using h.2.1
        · intro u hu
          simp only [fetchReadsAux, ha', Bool.false_eq_true, if_neg] at hu
          rcases h.2.2 u hu with ⟨x, hx1, hx2, hx3⟩ | hpair
          · exact Or.inl ⟨x, hx1, hx2, by simp [hx3]⟩
          · exact Or.inr hpair
      | some b =>
        have hb : yieldsSingle b = false := hbuf b rfl
        have h := ih none (by intro x hx; cases hx)
        refine ⟨?_, ?_, ?_⟩
        · simp only [fetchReadsAux, ha', Bool.false_eq_true, if_neg]
          simpa [List.filter, ha'] using h.1
        · simp only [fetchReadsAux, ha', Bool.false_eq_true, if_neg]
          simp only [List.filter, ha']
          simpa [chunk2] using h.2.1
        · intro u hu
          have hrw : fetchReadsAux (some b) (a :: rest)
              = [b, a] :: fetchReadsAux none rest := by
            simp [fetchReadsAux, ha']
          rw [hrw] at hu
          rcases List.mem_cons.mp hu with rfl | hu
          · exact Or.inr ⟨b, a, rfl, hb, ha'⟩
          · rcases h.2.2 u hu with ⟨x, hx1, hx2, hx3⟩ | hpair
            · exact Or.inl ⟨x, hx1, hx2, by simp [hx3]⟩
            · exact Or.inr hpair

/-- C10: every unit fetch_reads yields from an alignment stream is either a
single record (unpaired, or paired with the mate unmapped) or a pair of
records neither of which qualifies for single yield; the single-record units
are exactly the single-yield records of the stream in order, and the
two-record units are exactly the consecutive pairs of the subsequence of
buffered (mapped-mate paired) records, so a trailing odd buffered record is
silently dropped and never yielded. -/
theorem fetch_reads_units (s : List AlnRec) :
    (∀ u ∈ fetch_reads s,
        (∃ a, u = [a] ∧ yieldsSingle a = true ∧ a ∈ s)
        ∨ ∃ b c, u = [b, c] ∧ yieldsSingle b = false ∧ yieldsSingle c = false)
    ∧ ((fetch_reads s).filter (fun u => u.length == 1)).flatten
        = s.filter (fun a => yieldsSingle a)
    ∧ (fetch_reads s).filter (fun u => u.length == 2)
        = chunk2 (s.filter (fun a => !yieldsSingle a)) := by
  have h := fetchReadsAux_spec s none (by intro b hb; cases hb)
  exact ⟨h.2.2, h.1, by simpa using h.2.1⟩

/-- C3: for a single-end record, and for a record whose mate is unmapped, the
alignment score is query length minus edit distance and the percent identity
is 100 times that difference over the query length; for a full pair the score
is the sum of the per-mate differences and the percent identity is computed
over the summed lengths and summed edit distances. -/
theorem score_engine_spec (a b : AlnRec) :
    (a.is_paired = false → a.query_length ≠ 0 →
        compute_aln_score [a] = some ((a.query_length : Int) - (a.nm : Int))
        ∧ compute_perc_id [a]
            = some (100 * ((a.query_length : ℚ) - (a.nm : ℚ)) / (a.query_length : ℚ)))
    ∧ (a.is_paired = true → a.mate_is_unmapped = true → a.query_length ≠ 0 →
        compute_aln_score [a] = some ((a.query_length : Int) - (a.nm : Int))
        ∧ compute_perc_id [a]
            = some (100 * ((a.query_length : ℚ) - (a.nm : ℚ)) / (a.query_length : ℚ)))
    ∧ (a.is_paired = true → a.mate_is_unmapped = false →
        a.query_length + b.query_length ≠ 0 →
        compute_aln_score [a, b]
            = some (((a.query_length : Int) - (a.nm : Int))
                    + ((b.query_length : Int) - (b.nm : Int)))
        ∧ compute_perc_id [a, b]
            = some (100 * (((a.query_length + b.query_length : Nat) : ℚ)
                           - ((a.nm + b.nm : Nat) : ℚ))
                    / ((a.query_length + b.query_length : Nat) : ℚ))) := by
  refine ⟨?_, ?_, ?_⟩
  · intro hp hl
    constructor
    · simp [compute_aln_score, hp]
    · simp [compute_perc_id, percIdParts, hp, hl]
  · intro hp hm hl
    constructor
    · simp [compute_aln_score, hp, hm]
    · simp [compute_perc_id, percIdParts, hp, hm, hl]
  · intro hp hm hl
    constructor
    · simp [compute_aln_score, hp, hm]
    · simp [compute_perc_id, percIdParts, hp, hm, hl]

/-- Witness for C3: the worked example of the spec, mate 1 of length 100 with
edit distance 2 and mate 2 of length 100 with edit distance 3, scores 195
with percent identity 97.5. -/
theorem score_engine_spec_witness :
    compute_aln_score [exMate1, exMate2] = some 195
    ∧ compute_perc_id [exMate1, exMate2] = some (195 / 2) := by
  have h := (score_engine_spec exMate1 exMate2).2.2 rfl rfl
    (by norm_num [exMate1, exMate2])
  refine ⟨h.1.trans ?_, h.2.trans ?_⟩
  · norm_num [exMate1, exMate2]
  · norm_num [exMate1, exMate2]

/-- C8: on a read-pair unit whose accumulated query length is zero the
percent-identity computation of compute_perc_id divides by zero and is
undefined (none, modelling the ZeroDivisionError the source raises); the
source has no special case for zero-length records. -/
theorem perc_id_zero_length (pe : List AlnRec) (edit : Nat)
    (h : percIdParts pe = some (0, edit)) :
    compute_perc_id pe = none := by
  simp [compute_perc_id, h]

/-- Witness for C8: a concrete single-end record of query length zero reaches
the division by zero. -/
theorem perc_id_zero_length_witness :
    percIdParts [zeroLenRec] = some (0, 0)
    ∧ compute_perc_id [zeroLenRec] = none :=
  ⟨rfl, perc_id_zero_length [zeroLenRec] 0 rfl⟩

/- ### Lemmas on the association-list dict -/

theorem lookup_upsert_self (k : String) (v : α) (l : List (String × α)) :
    (upsert k v l).lookup k = some v := by
  induction l with
  | nil => simp [upsert, List.lookup]
  | cons p rest ih =>
    rcases p with ⟨k1, v1⟩
    by_cases h : k1 = k
    · simp [upsert, h, List.lookup]
    · have hne : (k == k1) = false := beq_eq_false_iff_ne.mpr (fun hh => h hh.symm)
      simp [upsert, h, List.lookup, hne, ih]

theorem lookup_upsert_ne (k q : String) (v : α) (l : List (String × α))
    (h : q ≠ k) :
    (upsert k v l).lookup q = l.lookup q := by
  have hqk : (q == k) = false := beq_eq_false_iff_ne.mpr h
  induction l with
  | nil => simp [upsert, List.lookup, hqk]
  | cons p rest ih =>
    rcases p with ⟨k1, v1⟩
    by_cases h2 : k1 = k
    · subst h2
      simp [upsert, List.lookup, hqk]
    · by_cases h1 : q = k1
      · simp [upsert, h2, List.lookup, h1]
      · have hne1 : (q == k1) = false := beq_eq_false_iff_ne.mpr h1
        simp [upsert, h2, List.lookup, hne1, ih]

theorem mem_upsert (k : String) (v : α) (l : List (String × α)) (x : String × α)
    (h : x ∈ upsert k v l) : x = (k, v) ∨ x ∈ l := by
  induction l with
  | nil => simpa [upsert] using h
  | cons p rest ih =>
    rcases p with ⟨k1, v1⟩
    by_cases h1 : k1 = k
    · simp only [upsert, h1, if_pos] at h
      rcases List.mem_cons.mp h with rfl | h
      · exact Or.inl rfl
      · exact Or.inr (List.mem_cons_of_mem _ h)
    · simp only [upsert, h1, if_neg, ite_false, if_false] at h
      rcases List.mem_cons.mp h with rfl | h
      · exact Or.inr (List.mem_cons_self _ _)
      · rcases ih h with h | h
        · exact Or.inl h
        · exact Or.inr (List.mem_cons_of_mem _ h)

theorem mem_upsert_self (k : String) (v : α) (l : List (String × α)) :
    (k, v) ∈ upsert k v l := by
  induction l with
  | nil => simp [upsert]
  | cons p rest ih =>
    rcases p with ⟨k1, v1⟩
    by_cases h1 : k1 = k
    · simp [upsert, h1]
    · simp only [upsert, h1, if_neg, ite_false, if_false]
      exact List.mem_cons_of_mem _ ih

theorem mem_upsert_of_ne (k : String) (v : α) (l : List (String × α))
    (x : String × α) (hx : x ∈ l) (h : x.1 ≠ k) : x ∈ upsert k v l := by
  induction l with
  | nil => cases hx
  | cons p rest ih =>
    rcases p with ⟨k1, v1⟩
    rcases List.mem_cons.mp hx with rfl | hx
    · have h1 : ¬ (k1 = k) := h
      rw [show upsert k v ((k1, v1) :: rest) = (k1, v1) :: upsert k v rest from by
        simp [upsert, h1]]
      exact List.mem_cons_self _ _
    · by_cases h1 : k1 = k
      · rw [show upsert k v ((k1, v1) :: rest) = (k, v) :: rest from by
          simp [upsert, h1]]
        exact List.mem_cons_of_mem _ hx
      · rw [show upsert k v ((k1, v1) :: rest) = (k1, v1) :: upsert k v rest from by
          simp [upsert, h1]]
        exact List.mem_cons_of_mem _ (ih hx)

theorem keys_upsert_subset (k : String) (v : α) (l : List (String × α))
    (y : String) (h : y ∈ (upsert k v l).map Prod.fst) :
    y = k ∨ y ∈ l.map Prod.fst := by
  rcases List.mem_map.mp h with ⟨x, hx, rfl⟩
  rcases mem_upsert k v l x hx with rfl | hx
  · exact Or.inl rfl
  · exact Or.inr (List.mem_map_of_mem Prod.fst hx)

theorem keys_upsert_nodup (k : String) (v : α) (l : List (String × α))
    (h : (l.map Prod.fst).Nodup) : ((upsert k v l).map Prod.fst).Nodup := by
  induction l with
  | nil => simp [upsert]
  | cons p rest ih =>
    rcases p with ⟨k1, v1⟩
    simp only [List.map_cons, List.nodup_cons] at h
    by_cases h1 : k1 = k
    · subst h1
      simp only [upsert, if_pos]
      simpa using h
    · simp only [upsert, h1, if_neg, ite_false, if_false, List.map_cons,
        List.nodup_cons]
      refine ⟨?_, ih h.2⟩
      intro hc
      rcases keys_upsert_subset k v rest k1 hc with rfl | hc
      · exact h1 rfl
      · exact h.1 hc

theorem upsert_ne_nil (k : String) (v : α) (l : List (String × α)) :
    upsert k v l ≠ [] := by
  cases l with
  | nil => simp [upsert]
  | cons p rest =>
    rcases p with ⟨k1, v1⟩
    by_cases h1 : k1 = k <;> simp [upsert, h1]

/- ### Transfer between the option-valued and the pure best-hits scan -/

theorem score_isSome_of_perc_isSome (pe : List AlnRec)
    (h : (compute_perc_id pe).isSome = true) :
    (compute_aln_score pe).isSome = true := by
  cases pe with
  | nil => simp [compute_perc_id, percIdParts] at h
  | cons r0 rest =>
    cases hp : r0.is_paired <;> cases hm : r0.mate_is_unmapped <;>
      cases rest <;>
      simp [compute_perc_id, percIdParts, compute_aln_score, hp, hm] at h ⊢

theorem processAln_eq (pm : ℚ) (c : String) (best : List (String × Hit))
    (pe : List AlnRec) (h : wfUnit pe = true) :
    processAln pm c best pe = some (processAlnP pm c best pe) := by
  rcases Option.isSome_iff_exists.mp h with ⟨p, hp⟩
  have hs := score_isSome_of_perc_isSome pe h
  rcases Option.isSome_iff_exists.mp hs with ⟨s, hscore⟩
  cases pe with
  | nil => simp [compute_perc_id, percIdParts] at hp
  | cons r0 rest => simp [processAln, processAlnP, hp, hscore]

theorem processAln_wf (pm : ℚ) (c : String) (best : List (String × Hit))
    (pe : List AlnRec) (r : List (String × Hit))
    (h : processAln pm c best pe = some r) : wfUnit pe = true := by
  by_contra hwf
  have hwf2 : (compute_perc_id pe).isSome = false := by
    simpa [wfUnit] using hwf
  have hnone : compute_perc_id pe = none := by
    cases hcp : compute_perc_id pe
    · rfl
    · rw [hcp] at hwf2; simp at hwf2
  cases pe with
  | nil => simp [processAln] at h
  | cons r0 rest =>
    cases hscore : compute_aln_score (r0 :: rest) <;>
      simp [processAln, hscore, hnone] at h

theorem foldlM_processAln_eq (pm : ℚ) (c : String)
    (units : List (List AlnRec)) :
    ∀ best, (∀ pe ∈ units, wfUnit pe = true) →
      units.foldlM (fun b pe => processAln pm c b pe) best
        = some (units.foldl (fun b pe => processAlnP pm c b pe) best) := by
  induction units with
  | nil => intro best h; rfl
  | cons u rest ih =>
    intro best h
    have hu : wfUnit u = true := h u (by simp)
    simp only [List.foldlM_cons, processAln_eq pm c best u hu,
      Option.bind_eq_bind, Option.some_bind, List.foldl_cons]
    exact ih (processAlnP pm c best u) (fun pe hpe => h pe (by simp [hpe]))

theorem foldlM_processAln_wf (pm : ℚ) (c : String)
    (units : List (List AlnRec)) :
    ∀ best r, units.foldlM (fun b pe => processAln pm c b pe) best = some r →
      ∀ pe ∈ units, wfUnit pe = true := by
  induction units with
  | nil => intro best r h pe hpe; cases hpe
  | cons u rest ih =>
    intro best r h pe hpe
    rw [List.foldlM_cons] at h
    cases hu : processAln pm c best u with
    | none => rw [hu] at h; simp at h
    | some b2 =>
      rw [hu] at h
      simp only [Option.bind_eq_bind, Option.some_bind] at h
      rcases List.mem_cons.mp hpe with rfl | hpe
      · exact processAln_wf pm c best pe b2 hu
      · exact ih b2 r h pe hpe

theorem best_hits_scan_go (pm : ℚ)
    (clusters : List (String × List (List AlnRec))) :
    ∀ init, (∀ x ∈ flatAlns clusters, wfUnit x.2 = true) →
      clusters.foldlM
        (fun best c => c.2.foldlM (fun b pe => processAln pm c.1 b pe) best) init
        = some (scanP pm (flatAlns clusters) init) := by
  induction clusters with
  | nil => intro init h; rfl
  | cons c rest ih =>
    intro init h
    have hflat : flatAlns (c :: rest)
        = c.2.map (fun pe => (c.1, pe)) ++ flatAlns rest := by
      simp [flatAlns]
    have hc : ∀ pe ∈ c.2, wfUnit pe = true := fun pe hpe =>
      h (c.1, pe) (by
        rw [hflat]
        exact List.mem_append_left _ (List.mem_map.mpr ⟨pe, hpe, rfl⟩))
    rw [List.foldlM_cons, foldlM_processAln_eq pm c.1 c.2 init hc]
    simp only [Option.bind_eq_bind, Option.some_bind]
    rw [ih _ (fun x hx => h x (by rw [hflat]; exact List.mem_append_right _ hx))]
    congr 1
    simp only [scanP, flatAlns, List.flatMap_cons, List.foldl_append,
      List.foldl_map]

theorem best_hits_scan_go_wf (pm : ℚ)
    (clusters : List (String × List (List AlnRec))) :
    ∀ init r, clusters.foldlM
        (fun best c => c.2.foldlM (fun b pe => processAln pm c.1 b pe) best) init
        = some r →
      ∀ x ∈ flatAlns clusters, wfUnit x.2 = true := by
  induction clusters with
  | nil => intro init r h x hx; simp [flatAlns] at hx
  | cons c rest ih =>
    intro init r h x hx
    rw [List.foldlM_cons] at h
    cases hin : c.2.foldlM (fun b pe => processAln pm c.1 b pe) init with
    | none => rw [hin] at h; simp at h
    | some b2 =>
      rw [hin] at h
      simp only [Option.bind_eq_bind, Option.some_bind] at h
      simp only [flatAlns, List.flatMap_cons, List.mem_append, List.mem_map] at hx
      rcases hx with ⟨pe, hpe, rfl⟩ | hx
      · exact foldlM_processAln_wf pm c.1 c.2 init b2 hin pe hpe
      · exact ih b2 r h x hx

theorem best_hits_scan_some (pm : ℚ)
    (clusters : List (String × List (List AlnRec)))
    (bh : List (String × Hit)) (h : best_hits_scan pm clusters = some bh) :
    bh = scanP pm (flatAlns clusters) []
    ∧ ∀ x ∈ flatAlns clusters, wfUnit x.2 = true := by
  have hwf := best_hits_scan_go_wf pm clusters [] bh h
  have heq := best_hits_scan_go pm clusters [] hwf
  rw [best_hits_scan] at h
  rw [heq] at h
  exact ⟨(Option.some.inj h).symm, hwf⟩

/- ### Per-read invariant of the best-hits scan -/

theorem alnPass_perc (pm : ℚ) (pe : List AlnRec) (h : alnPass pm pe = true) :
    ∃ p, compute_perc_id pe = some p ∧ ¬ (p < pm) := by
  cases hp : compute_perc_id pe with
  | none => simp [alnPass, hp] at h
  | some p =>
    refine ⟨p, rfl, ?_⟩
    simpa [alnPass, hp] using h

theorem alnScore_eq (pe : List AlnRec) (s : Int)
    (h : compute_aln_score pe = some s) : alnScore pe = s := by
  simp [alnScore, h]

theorem lookup_processAlnP_irrelevant (pm : ℚ) (c q : String)
    (best : List (String × Hit)) (pe : List AlnRec)
    (h : ¬ (unitQuery pe = some q ∧ alnPass pm pe = true)) :
    (processAlnP pm c best pe).lookup q = best.lookup q := by
  cases pe with
  | nil => rfl
  | cons r0 rest =>
    cases hscore : compute_aln_score (r0 :: rest) with
    | none => simp [processAlnP, hscore]
    | some s =>
      cases hperc : compute_perc_id (r0 :: rest) with
      | none => simp [processAlnP, hscore, hperc]
      | some p =>
        by_cases hlt : p < pm
        · simp [processAlnP, hscore, hperc, hlt]
        · have hqv : r0.query_name ≠ q := by
            intro hc
            exact h ⟨by simp [unitQuery, hc], by simp [alnPass, hperc, hlt]⟩
          have hql : q ≠ r0.query_name := fun hc => hqv hc.symm
          simp only [processAlnP, hscore, hperc, hlt, if_neg, ite_false, if_false]
          cases hbl : best.lookup r0.query_name with
          | none => exact lookup_upsert_ne _ q _ best hql
          | some hit =>
            by_cases h1 : hit.score < s
            · simp only [h1, if_pos]
              exact lookup_upsert_ne _ q _ best hql
            · by_cases h2 : s = hit.score
              · simp only [if_neg h1, if_pos h2]
                exact lookup_upsert_ne _ q _ best hql
              · simp [h1, h2]

theorem lookup_processAlnP_relevant (pm : ℚ) (c q : String)
    (best : List (String × Hit)) (pe : List AlnRec)
    (hq : unitQuery pe = some q) (hpass : alnPass pm pe = true) :
    (processAlnP pm c best pe).lookup q
      = match best.lookup q with
        | none => some { score := alnScore pe, aln := [(c, pe)] }
        | some hit =>
          if hit.score < alnScore pe then
            some { score := alnScore pe, aln := [(c, pe)] }
          else if alnScore pe = hit.score then
            some { score := hit.score, aln := upsert c pe hit.aln }
          else some hit := by
  cases pe with
  | nil => simp [unitQuery] at hq
  | cons r0 rest =>
    have hq0 : r0.query_name = q := by simpa [unitQuery] using hq
    rcases alnPass_perc pm (r0 :: rest) hpass with ⟨p, hperc, hlt⟩
    have hsc : (compute_aln_score (r0 :: rest)).isSome = true :=
      score_isSome_of_perc_isSome _ (by simp [hperc])
    rcases Option.isSome_iff_exists.mp hsc with ⟨s, hscore⟩
    have hs : alnScore (r0 :: rest) = s := alnScore_eq _ s hscore
    subst hq0
    simp only [processAlnP, hscore, hperc, hlt, if_neg, ite_false, if_false, hs]
    cases hbl : best.lookup r0.query_name with
    | none =>
      simp only []
      exact lookup_upsert_self r0.query_name _ best
    | some hit =>
      by_cases h1 : hit.score < s
      · simp only [h1, if_pos]
        exact lookup_upsert_self r0.query_name _ best
      · by_cases h2 : s = hit.score
        · simp only [if_neg h1, if_pos h2]
          exact lookup_upsert_self r0.query_name _ best
        · simp [h1, h2, hbl]

theorem HitInv_step (pm : ℚ) (c q : String) (best : List (String × Hit))
    (pe : List AlnRec) (L : List (String × List AlnRec))
    (hq : unitQuery pe = some q) (hpass : alnPass pm pe = true)
    (hinv : HitInv L (best.lookup q)) :
    HitInv (L ++ [(c, pe)]) ((processAlnP pm c best pe).lookup q) := by
  rw [lookup_processAlnP_relevant pm c q best pe hq hpass]
  cases hbl : best.lookup q with
  | none =>
    rw [hbl] at hinv
    have hL : L = [] := hinv
    subst hL
    refine ⟨?_, ?_, ?_, by simp, by simp⟩
    · simp [List.maximum_cons]
    · intro c2 pe2 hmem
      have heq := List.mem_singleton.mp hmem
      injection heq with h1 h2
      subst h1; subst h2
      exact ⟨by simp, rfl⟩
    · intro x hx hsc
      simp only [List.nil_append, List.mem_singleton] at hx
      subst hx
      exact ⟨pe, by simp⟩
  | some hit =>
    rw [hbl] at hinv
    obtain ⟨hmax, hmem, hach, hnodup, hne⟩ := hinv
    have hboundL : ∀ y ∈ L.map (fun x => alnScore x.2), y ≤ hit.score :=
      fun y hy => List.le_maximum_of_mem hy hmax
    by_cases h1 : hit.score < alnScore pe
    · simp only [h1, if_pos]
      refine ⟨?_, ?_, ?_, by simp, by simp⟩
      · rw [List.maximum_eq_coe_iff]
        constructor
        · simp
        · intro b hb
          simp only [List.map_append, List.mem_append, List.map_cons,
            List.map_nil, List.mem_singleton] at hb
          rcases hb with hb | hb
          · exact le_of_lt (lt_of_le_of_lt (hboundL b hb) h1)
          · exact le_of_eq hb
      · intro c2 pe2 hmem2
        simp only [List.mem_singleton] at hmem2
        injection hmem2 with h2 h3
        subst h2; subst h3
        exact ⟨by simp, rfl⟩
      · intro x hx hsc
        rcases List.mem_append.mp hx with hx | hx
        · exfalso
          have : alnScore x.2 ≤ hit.score :=
            hboundL _ (List.mem_map_of_mem _ hx)
          rw [hsc] at this
          exact absurd h1 (not_lt.mpr this)
        · simp only [List.mem_singleton] at hx
          subst hx
          exact ⟨pe, by simp⟩
    · by_cases h2 : alnScore pe = hit.score
      · simp only [if_neg h1, if_pos h2]
        refine ⟨?_, ?_, ?_, keys_upsert_nodup c pe hit.aln hnodup,
          upsert_ne_nil c pe hit.aln⟩
        · rw [List.maximum_eq_coe_iff]
          constructor
          · have hsmem : (hit.score : Int) ∈ L.map (fun x => alnScore x.2) :=
              (List.maximum_eq_coe_iff.mp hmax).1
            simp only [List.map_append, List.mem_append]
            exact Or.inl hsmem
          · intro b hb
            simp only [List.map_append, List.mem_append, List.map_cons,
              List.map_nil, List.mem_singleton] at hb
            rcases hb with hb | hb
            · exact hboundL b hb
            · rw [hb, h2]
        · intro c2 pe2 hmem2
          rcases mem_upsert c pe hit.aln (c2, pe2) hmem2 with heq | hmem2
          · injection heq with h3 h4
            subst h3; subst h4
            exact ⟨by simp, h2⟩
          · rcases hmem c2 pe2 hmem2 with ⟨hin, hsc⟩
            exact ⟨List.mem_append_left _ hin, hsc⟩
        · intro x hx hsc
          rcases List.mem_append.mp hx with hx | hx
          · rcases hach x hx hsc with ⟨w, hw⟩
            by_cases hxc : x.1 = c
            · exact ⟨pe, hxc ▸ mem_upsert_self c pe hit.aln⟩
            · exact ⟨w, mem_upsert_of_ne c pe hit.aln (x.1, w) hw hxc⟩
          · simp only [List.mem_singleton] at hx
            subst hx
            exact ⟨pe, mem_upsert_self c pe hit.aln⟩
      · have h3 : alnScore pe < hit.score :=
          lt_of_le_of_ne (not_lt.mp h1) h2
        simp only [h1, h2, if_neg, ite_false, if_false]
        refine ⟨?_, ?_, ?_, hnodup, hne⟩
        · rw [List.maximum_eq_coe_iff]
          constructor
          · have hsmem : (hit.score : Int) ∈ L.map (fun x => alnScore x.2) :=
              (List.maximum_eq_coe_iff.mp hmax).1
            simp only [List.map_append, List.mem_append]
            exact Or.inl hsmem
          · intro b hb
            simp only [List.map_append, List.mem_append, List.map_cons,
              List.map_nil, List.mem_singleton] at hb
            rcases hb with hb | hb
            · exact hboundL b hb
            · rw [hb]; exact le_of_lt h3
        · intro c2 pe2 hmem2
          rcases hmem c2 pe2 hmem2 with ⟨hin, hsc⟩
          exact ⟨List.mem_append_left _ hin, hsc⟩
        · intro x hx hsc
          rcases List.mem_append.mp hx with hx | hx
          · exact hach x hx hsc
          · simp only [List.mem_singleton] at hx
            subst hx
            exact absurd hsc h2

theorem HitInv_scanP (pm : ℚ) (q : String) (xs : List (String × List AlnRec)) :
    ∀ best L, HitInv L (best.lookup q) →
      HitInv (L ++ relevantFilter pm q xs) ((scanP pm xs best).lookup q) := by
  induction xs with
  | nil =>
    intro best L hinv
    simpa [scanP, relevantFilter] using hinv
  | cons x rest ih =>
    intro best L hinv
    have hscan : scanP pm (x :: rest) best
        = scanP pm rest (processAlnP pm x.1 best x.2) := rfl
    by_cases hx : unitQuery x.2 = some q ∧ alnPass pm x.2 = true
    · have hcond : (decide (unitQuery x.2 = some q) && alnPass pm x.2) = true := by
        simp [hx.1, hx.2]
      have hfil : relevantFilter pm q (x :: rest)
          = x :: relevantFilter pm q rest := by
        simp [relevantFilter, List.filter_cons, hcond]
      have hstep := HitInv_step pm x.1 q best x.2 L hx.1 hx.2 hinv
      have := ih (processAlnP pm x.1 best x.2) (L ++ [x]) hstep
      rw [hscan, hfil]
      simpa [List.append_assoc] using this
    · have hcond : ¬ ((decide (unitQuery x.2 = some q) && alnPass pm x.2) = true) := by
        simp only [Bool.and_eq_true, decide_eq_true_eq]
        exact hx
      have hfil : relevantFilter pm q (x :: rest) = relevantFilter pm q rest := by
        simp [relevantFilter, List.filter_cons, hcond]
      have hirr : (processAlnP pm x.1 best x.2).lookup q = best.lookup q :=
        lookup_processAlnP_irrelevant pm x.1 q best x.2 hx
      have hinv2 : HitInv L ((processAlnP pm x.1 best x.2).lookup q) := by
        rw [hirr]; exact hinv
      rw [hscan, hfil]
      exact ih (processAlnP pm x.1 best x.2) L hinv2

theorem scan_HitInv (pid_min : ℚ) (q : String)
    (clusters : List (String × List (List AlnRec)))
    (bh : List (String × Hit)) (h : best_hits_scan pid_min clusters = some bh) :
    HitInv (relevantAlns pid_min q clusters) (bh.lookup q) := by
  obtain ⟨hbheq, hwf⟩ := best_hits_scan_some pid_min clusters bh h
  have hinv0 : HitInv ([] : List (String × List AlnRec))
      (List.lookup q ([] : List (String × Hit))) := rfl
  have := HitInv_scanP pid_min q (flatAlns clusters) [] [] hinv0
  rw [hbheq]
  simpa [relevantAlns] using this

theorem scan_lookup_none_of_relevant_nil (pid_min : ℚ) (q : String)
    (clusters : List (String × List (List AlnRec)))
    (bh : List (String × Hit)) (h : best_hits_scan pid_min clusters = some bh)
    (hR : relevantAlns pid_min q clusters = []) : bh.lookup q = none := by
  have hI := scan_HitInv pid_min q clusters bh h
  cases hlook : bh.lookup q with
  | none => rfl
  | some hit =>
    rw [hlook, hR] at hI
    have hmax := hI.1
    simp at hmax

theorem aln_singleton (l : List (String × List AlnRec)) (cstar : String)
    (hne : l ≠ []) (hnodup : (l.map Prod.fst).Nodup)
    (hall : ∀ x ∈ l, x.1 = cstar) : ∃ w, l = [(cstar, w)] := by
  cases l with
  | nil => exact absurd rfl hne
  | cons a rest =>
    cases rest with
    | nil =>
      have ha := hall a (by simp)
      exact ⟨a.2, by rw [← ha]⟩
    | cons b rest2 =>
      exfalso
      have ha := hall a (by simp)
      have hb := hall b (by simp)
      simp only [List.map_cons, List.nodup_cons] at hnodup
      exact hnodup.1 (by simp [ha, hb])

theorem resolveHit_single (abun : String → ℚ) (u : ℚ) (score : Int)
    (gc : String) (pe : List AlnRec) :
    resolveHit abun u { score := score, aln := [(gc, pe)] } = some (gc, pe) := rfl

/-- C1: in the scan of find_best_hits, for every read id q: a
filter-surviving alignment creates a fresh single-cluster Hit when the read
is unseen, replaces the stored Hit when its score is strictly greater, adds
its cluster as an additional alternative when the score ties, and is
discarded when strictly lower; consequently after all clusters are
processed the stored score of q is the maximum surviving score, the stored
alternatives are exactly the clusters achieving that maximum, and a read
whose maximum is achieved by alignments of a single cluster is resolved to
that cluster deterministically. -/
theorem find_best_hits_best_score (pid_min : ℚ) (q : String)
    (clusters : List (String × List (List AlnRec))) :
    (∀ c pe best, unitQuery pe = some q → alnPass pid_min pe = true →
      ((best.lookup q = none →
          (processAlnP pid_min c best pe).lookup q
            = some { score := alnScore pe, aln := [(c, pe)] })
       ∧ (∀ hit, best.lookup q = some hit → hit.score < alnScore pe →
          (processAlnP pid_min c best pe).lookup q
            = some { score := alnScore pe, aln := [(c, pe)] })
       ∧ (∀ hit, best.lookup q = some hit → alnScore pe = hit.score →
          (processAlnP pid_min c best pe).lookup q
            = some { score := hit.score, aln := upsert c pe hit.aln })
       ∧ (∀ hit, best.lookup q = some hit → alnScore pe < hit.score →
          (processAlnP pid_min c best pe).lookup q = some hit)))
    ∧ (∀ bh, best_hits_scan pid_min clusters = some bh →
        ((relevantAlns pid_min q clusters = [] ↔ bh.lookup q = none)
         ∧ ∀ hit, bh.lookup q = some hit →
            ((relevantAlns pid_min q clusters).map (fun x => alnScore x.2)).maximum
                = (hit.score : Int)
            ∧ (∀ c pe, (c, pe) ∈ hit.aln →
                (c, pe) ∈ relevantAlns pid_min q clusters ∧ alnScore pe = hit.score)
            ∧ (∀ x ∈ relevantAlns pid_min q clusters,
                alnScore x.2 = hit.score → ∃ w, (x.1, w) ∈ hit.aln)))
    ∧ (∀ bh hit cstar, best_hits_scan pid_min clusters = some bh →
        bh.lookup q = some hit →
        (∀ x ∈ relevantAlns pid_min q clusters, x.1 ≠ cstar →
            alnScore x.2 < hit.score) →
        ∃ pe, hit.aln = [(cstar, pe)]
          ∧ ∀ abun u, resolveHit abun u hit = some (cstar, pe)) := by
  refine ⟨?_, ?_, ?_⟩
  · intro c pe best hq hpass
    have hrel := lookup_processAlnP_relevant pid_min c q best pe hq hpass
    refine ⟨?_, ?_, ?_, ?_⟩
    · intro h0
      rw [hrel, h0]
    · intro hit hh hlt
      rw [hrel, hh]
      simp [hlt]
    · intro hit hh heq
      rw [hrel, hh]
      have h1 : ¬ hit.score < alnScore pe := by rw [heq]; exact lt_irrefl _
      simp only [if_neg h1, if_pos heq]
    · intro hit hh hlt
      rw [hrel, hh]
      have h1 : ¬ hit.score < alnScore pe := not_lt.mpr (le_of_lt hlt)
      have h2 : ¬ alnScore pe = hit.score := ne_of_lt hlt
      simp [h1, h2]
  · intro bh hbh
    have hI := scan_HitInv pid_min q clusters bh hbh
    constructor
    · constructor
      · exact scan_lookup_none_of_relevant_nil pid_min q clusters bh hbh
      · intro hlook
        rw [hlook] at hI
        exact hI
    · intro hit hlook
      rw [hlook] at hI
      exact ⟨hI.1, hI.2.1, hI.2.2.1⟩
  · intro bh hit cstar hbh hlook hmax
    have hI := scan_HitInv pid_min q clusters bh hbh
    rw [hlook] at hI
    obtain ⟨hmaxI, hmem, hach, hnodup, hne⟩ := hI
    have hall : ∀ x ∈ hit.aln, x.1 = cstar := by
      intro x hx
      rcases hmem x.1 x.2 hx with ⟨hin, hsc⟩
      by_contra hxc
      exact (ne_of_lt (hmax (x.1, x.2) hin hxc)) hsc
    obtain ⟨w, hw⟩ := aln_singleton hit.aln cstar hne hnodup hall
    refine ⟨w, hw, fun abun u => ?_⟩
    rcases hit with ⟨sc, aln⟩
    simp only at hw
    subst hw
    rfl

/-- Witness for C1: the score-195 alignment of cluster B for unseen read r1
creates the single-cluster Hit with score 195. -/
theorem find_best_hits_best_score_witness :
    unitQuery [bhRecB] = some "r1" ∧ alnPass 90 [bhRecB] = true
    ∧ (processAlnP 90 "B" [] [bhRecB]).lookup "r1"
        = some { score := alnScore [bhRecB], aln := [("B", [bhRecB])] } := by
  have hpass : alnPass 90 [bhRecB] = true := by
    norm_num [alnPass, compute_perc_id, percIdParts, bhRecB]
  exact ⟨rfl, hpass,
    ((find_best_hits_best_score 90 "r1" bhClusters).1 "B" [bhRecB] [] rfl hpass).1 rfl⟩

/-- C4: every alternative stored in any Hit of the scan has a defined
percent identity at least the configured minimum, and a read whose every
alignment scores a percent identity strictly below the minimum is stored in
no Hit, hence assigned to no cluster. -/
theorem pid_filter_never_assigns (pid_min : ℚ) (q : String)
    (clusters : List (String × List (List AlnRec))) :
    (∀ bh, best_hits_scan pid_min clusters = some bh →
      ∀ hit, bh.lookup q = some hit →
        ∀ c pe, (c, pe) ∈ hit.aln →
          ∃ p, compute_perc_id pe = some p ∧ pid_min ≤ p)
    ∧ (∀ bh, best_hits_scan pid_min clusters = some bh →
        (∀ x ∈ flatAlns clusters, unitQuery x.2 = some q →
          ∀ p, compute_perc_id x.2 = some p → p < pid_min) →
        bh.lookup q = none) := by
  constructor
  · intro bh hbh hit hlook c pe hmem0
    have hI := scan_HitInv pid_min q clusters bh hbh
    rw [hlook] at hI
    rcases hI.2.1 c pe hmem0 with ⟨hin, hsc⟩
    have hcond := (List.mem_filter.mp hin).2
    simp only [Bool.and_eq_true, decide_eq_true_eq] at hcond
    rcases alnPass_perc pid_min pe hcond.2 with ⟨p, hp, hnlt⟩
    exact ⟨p, hp, not_lt.mp hnlt⟩
  · intro bh hbh hfail
    have hR : relevantAlns pid_min q clusters = [] := by
      rw [relevantAlns, relevantFilter]
      rw [List.filter_eq_nil_iff]
      intro x hx
      simp only [Bool.and_eq_true, decide_eq_true_eq, not_and]
      intro hq hpass
      rcases alnPass_perc pid_min x.2 hpass with ⟨p, hp, hnlt⟩
      exact hnlt (hfail x hx hq p hp)
    exact scan_lookup_none_of_relevant_nil pid_min q clusters bh hbh hR

/-- Witness for C4: a batch whose only alignment of read r1 scores percent
identity 95 against threshold 99 stores no Hit for r1. -/
theorem pid_filter_never_assigns_witness :
    best_hits_scan 99 [("A", [[bhRecA]])] = some []
    ∧ (List.lookup "r1" ([] : List (String × Hit))) = none := by
  have hscan : best_hits_scan 99 [("A", [[bhRecA]])] = some [] := by
    norm_num [best_hits_scan, List.foldlM, processAln, compute_aln_score,
      compute_perc_id, percIdParts, bhRecA]
  refine ⟨hscan, (pid_filter_never_assigns 99 "r1" [("A", [[bhRecA]])]).2 [] hscan ?_⟩
  intro x hx hq p hp
  have hxx : x = ("A", [bhRecA]) := by
    simpa [flatAlns] using hx
  subst hxx
  simp only [] at hp
  rw [show compute_perc_id [bhRecA] = some 95 from by
    norm_num [compute_perc_id, percIdParts, bhRecA]] at hp
  have : p = 95 := by injection hp with h; exact h.symm
  rw [this]
  norm_num

/- ### Lemmas on tie resolution -/

theorem sum_map_div_q (l : List ℚ) (s : ℚ) :
    (l.map (fun x => x / s)).sum = l.sum / s := by
  induction l with
  | nil => simp
  | cons x xs ih =>
    rw [List.map_cons, List.sum_cons, ih, List.sum_cons, div_add_div_same]

theorem chooseIdx_window (probs : List ℚ) :
    ∀ i v, (∀ p ∈ probs, 0 ≤ p) → i < probs.length →
      (probs.take i).sum ≤ v → v < (probs.take (i + 1)).sum →
      chooseIdx probs v = i := by
  induction probs with
  | nil => intro i v _ hi _ _; simp at hi
  | cons p rest ih =>
    intro i v hpos hi hlow hhigh
    cases i with
    | zero =>
      have hvp : v < p := by simpa using hhigh
      simp [chooseIdx, hvp]
    | succ j =>
      have hp0 : 0 ≤ p := hpos p (by simp)
      have hlow2 : p + (rest.take j).sum ≤ v := by
        simpa [List.take_succ_cons] using hlow
      have hrest_nonneg : 0 ≤ (rest.take j).sum :=
        List.sum_nonneg (fun x hx =>
          hpos x (List.mem_cons_of_mem _ (List.take_subset _ _ hx)))
      have hnlt : ¬ (v < p) := not_lt.mpr (by linarith)
      have hhigh2 : v - p < (rest.take (j + 1)).sum := by
        have hh : v < p + (rest.take (j + 1)).sum := by
          simpa [List.take_succ_cons] using hhigh
        linarith
      have hlow3 : (rest.take j).sum ≤ v - p := by linarith
      simp only [chooseIdx, hnlt, if_neg, ite_false, if_false]
      rw [ih j (v - p) (fun x hx => hpos x (List.mem_cons_of_mem _ hx))
        (by simpa using hi) hlow3 hhigh2]

theorem chooseIdx_lt_length (probs : List ℚ) :
    ∀ v, (∀ p ∈ probs, 0 ≤ p) → 0 ≤ v → v < probs.sum →
      chooseIdx probs v < probs.length := by
  induction probs with
  | nil =>
    intro v _ h0 hv
    simp only [List.sum_nil] at hv
    exact absurd (lt_of_le_of_lt h0 hv) (lt_irrefl 0)
  | cons p rest ih =>
    intro v hpos h0 hv
    by_cases hlt : v < p
    · simp [chooseIdx, hlt]
    · have hrec : chooseIdx rest (v - p) < rest.length := by
        apply ih (v - p) (fun x hx => hpos x (List.mem_cons_of_mem _ hx))
        · linarith [not_lt.mp hlt]
        · rw [List.sum_cons] at hv; linarith
      simp only [chooseIdx, hlt, if_neg, ite_false, if_false]
      simpa using Nat.succ_lt_succ hrec

theorem resolveHit_multi_eq (abun : String → ℚ) (v : ℚ) (sc : Int)
    (a b : String × List AlnRec) (rest : List (String × List AlnRec))
    (hS : (((a :: b :: rest : List (String × List AlnRec))).map
        (fun y => abun y.1)).sum ≠ 0) :
    resolveHit abun v { score := sc, aln := a :: b :: rest }
      = match (a :: b :: rest)[chooseIdx
            (((a :: b :: rest).map (fun y => abun y.1)).map
              (fun w => w / ((a :: b :: rest).map (fun y => abun y.1)).sum)) v]? with
        | none => none
        | some chosen => some chosen := by
  simp only [resolveHit]
  rw [if_neg hS]

theorem resolveHit_window (abun : String → ℚ) (v : ℚ) (hit : Hit)
    (a b : String × List AlnRec) (rest : List (String × List AlnRec))
    (halt : hit.aln = a :: b :: rest)
    (habun : ∀ s, 0 ≤ abun s)
    (hS : 0 < (hit.aln.map (fun y => abun y.1)).sum)
    (i : Nat) (hi : i < hit.aln.length)
    (hlow : ((hit.aln.take i).map
        (fun y => abun y.1 / (hit.aln.map (fun z => abun z.1)).sum)).sum ≤ v)
    (hhigh : v < ((hit.aln.take (i + 1)).map
        (fun y => abun y.1 / (hit.aln.map (fun z => abun z.1)).sum)).sum) :
    ∃ gc pe, hit.aln[i]? = some (gc, pe)
      ∧ resolveHit abun v hit = some (gc, pe) := by
  rcases hit with ⟨sc, aln⟩
  simp only at halt hS hi hlow hhigh ⊢
  subst halt
  set L : List (String × List AlnRec) := a :: b :: rest with hL
  have hfuse : ((L.map (fun y => abun y.1)).map
      (fun w => w / (L.map (fun y => abun y.1)).sum))
      = L.map (fun y => abun y.1 / (L.map (fun z => abun z.1)).sum) := by
    rw [List.map_map]
    rfl
  have hidx : chooseIdx (L.map
      (fun y => abun y.1 / (L.map (fun z => abun z.1)).sum)) v = i := by
    apply chooseIdx_window
    · intro p hp
      rcases List.mem_map.mp hp with ⟨y, hy, rfl⟩
      exact div_nonneg (habun y.1) (le_of_lt hS)
    · simpa using hi
    · rw [← List.map_take]
      exact hlow
    · rw [← List.map_take]
      exact hhigh
  rw [resolveHit_multi_eq abun v sc a b rest (ne_of_gt hS), hfuse, hidx]
  have hisome := List.getElem?_eq_getElem (l := L) (n := i) hi
  rw [hisome]
  exact ⟨L[i].1, L[i].2, rfl, rfl⟩

theorem resolveHit_some (abun : String → ℚ) (v : ℚ) (hit : Hit)
    (habun : ∀ s, 0 ≤ abun s) (hv0 : 0 ≤ v) (hv1 : v < 1)
    (hne : hit.aln ≠ [])
    (hcase : hit.aln.length = 1 ∨ 0 < (hit.aln.map (fun y => abun y.1)).sum) :
    ∃ gc pe, resolveHit abun v hit = some (gc, pe) ∧ (gc, pe) ∈ hit.aln := by
  rcases hit with ⟨sc, aln⟩
  simp only at hne hcase ⊢
  cases aln with
  | nil => exact absurd rfl hne
  | cons a tail =>
    cases tail with
    | nil => exact ⟨a.1, a.2, rfl, by simp⟩
    | cons b rest =>
      have hS : 0 < ((a :: b :: rest).map (fun y => abun y.1)).sum := by
        rcases hcase with h1 | h2
        · simp at h1
        · exact h2
      set L : List (String × List AlnRec) := a :: b :: rest with hL
      have hfuse : ((L.map (fun y => abun y.1)).map
          (fun w => w / (L.map (fun y => abun y.1)).sum))
          = L.map (fun y => abun y.1 / (L.map (fun z => abun z.1)).sum) := by
        rw [List.map_map]
        rfl
      have hsum1 : (L.map (fun y => abun y.1 / (L.map (fun z => abun z.1)).sum)).sum
          = 1 := by
        rw [← hfuse, sum_map_div_q, div_self (ne_of_gt hS)]
      have hidx : chooseIdx (L.map
          (fun y => abun y.1 / (L.map (fun z => abun z.1)).sum)) v < L.length := by
        have := chooseIdx_lt_length (L.map
            (fun y => abun y.1 / (L.map (fun z => abun z.1)).sum)) v
          (fun p hp => by
            rcases List.mem_map.mp hp with ⟨y, hy, rfl⟩
            exact div_nonneg (habun y.1) (le_of_lt hS))
          hv0 (by rw [hsum1]; exact hv1)
        simpa using this
      rw [resolveHit_multi_eq abun v sc a b rest (ne_of_gt hS), hfuse]
      rw [List.getElem?_eq_getElem hidx]
      refine ⟨_, _, rfl, ?_⟩
      exact List.getElem_mem hidx

/-- C2: resolve_ties maps every entry of the best-hits dict to exactly one
(cluster, unit) assignment keyed by the same read id: a Hit with a single
alternative is assigned that cluster directly; a Hit with several is
assigned a cluster drawn from the tied set with weights equal to each tied
cluster's abundance divided by the sum of the tied abundances (the weights
sum to 1, and the uniform draw selects the cluster at index i exactly on a
window of width equal to its normalized weight). -/
theorem resolve_ties_one_assignment (abun : String → ℚ) (u : String → ℚ)
    (best : List (String × Hit))
    (habun : ∀ s, 0 ≤ abun s) (hu : ∀ s, 0 ≤ u s ∧ u s < 1) :
    ((resolve_ties abun u best).map Prod.fst = best.map Prod.fst)
    ∧ (∀ v sc gc pe,
        resolveHit abun v { score := sc, aln := [(gc, pe)] } = some (gc, pe))
    ∧ (∀ q hit, (q, hit) ∈ best → hit.aln ≠ [] →
        (hit.aln.length = 1 ∨ 0 < (hit.aln.map (fun y => abun y.1)).sum) →
        ∃ gc pe, resolveHit abun (u q) hit = some (gc, pe)
          ∧ (q, some (gc, pe)) ∈ resolve_ties abun u best
          ∧ (gc, pe) ∈ hit.aln)
    ∧ (∀ q hit a b rest, (q, hit) ∈ best → hit.aln = a :: b :: rest →
        0 < (hit.aln.map (fun y => abun y.1)).sum →
        ((hit.aln.map
            (fun y => abun y.1 / (hit.aln.map (fun z => abun z.1)).sum)).sum = 1
         ∧ ∀ i v, i < hit.aln.length →
            ((hit.aln.take i).map
              (fun y => abun y.1 / (hit.aln.map (fun z => abun z.1)).sum)).sum ≤ v →
            v < ((hit.aln.take (i + 1)).map
              (fun y => abun y.1 / (hit.aln.map (fun z => abun z.1)).sum)).sum →
            ∃ gc pe, hit.aln[i]? = some (gc, pe)
              ∧ resolveHit abun v hit = some (gc, pe))) := by
  refine ⟨?_, ?_, ?_, ?_⟩
  · rw [resolve_ties, List.map_map]
    rfl
  · intro v sc gc pe
    exact resolveHit_single abun v sc gc pe
  · intro q hit hqmem hne hcase
    obtain ⟨gc, pe, hres, hmem⟩ :=
      resolveHit_some abun (u q) hit habun (hu q).1 (hu q).2 hne hcase
    refine ⟨gc, pe, hres, ?_, hmem⟩
    rw [resolve_ties]
    refine List.mem_map.mpr ⟨(q, hit), hqmem, ?_⟩
    simp [hres]
  · intro q hit a b rest hqmem halt hS
    constructor
    · have hfuse : ((hit.aln.map (fun y => abun y.1)).map
          (fun w => w / (hit.aln.map (fun y => abun y.1)).sum))
          = hit.aln.map
              (fun y => abun y.1 / (hit.aln.map (fun z => abun z.1)).sum) := by
        rw [List.map_map]
        rfl
      rw [← hfuse, sum_map_div_q, div_self (ne_of_gt hS)]
    · intro i v hi hlow hhigh
      exact resolveHit_window abun v hit a b rest halt habun hS i hi hlow hhigh

/-- Witness for C2: for the concrete 190/190 tie of read r1 between
clusters A (abundance 1/4) and B (abundance 3/4), the uniform draw 1/2
falls in the window of cluster B, and a singleton Hit is assigned its
cluster directly. -/
theorem resolve_ties_one_assignment_witness :
    resolveHit abunW (1 / 2) tieHit = some ("B", [bhRecA])
    ∧ resolveHit abunW (1 / 2) { score := 190, aln := [("A", [bhRecA])] }
        = some ("A", [bhRecA]) := by
  have habun : ∀ s, 0 ≤ abunW s := by
    intro s
    simp only [abunW]
    split_ifs <;> norm_num
  have hu : ∀ s : String, 0 ≤ (fun _ : String => (1 : ℚ) / 2) s
      ∧ (fun _ : String => (1 : ℚ) / 2) s < 1 := fun s => by norm_num
  have hBA : ("B" : String) ≠ "A" := by decide
  have h := resolve_ties_one_assignment abunW (fun _ => 1 / 2)
    [("r1", tieHit)] habun hu
  have hS : 0 < (tieHit.aln.map (fun y => abunW y.1)).sum := by
    norm_num [tieHit, abunW, hBA]
  have h4 := (h.2.2.2 "r1" tieHit ("A", [bhRecA]) ("B", [bhRecA]) []
    (by simp) rfl hS).2
  have hwin := h4 1 (1 / 2) (by norm_num [tieHit])
    (by norm_num [tieHit, abunW, hBA])
    (by norm_num [tieHit, abunW, hBA])
  obtain ⟨gc, pe, hget, hres⟩ := hwin
  have hget2 : tieHit.aln[1]? = some ("B", [bhRecA]) := rfl
  rw [hget2] at hget
  injection hget with hpair
  rw [← hpair] at hres
  exact ⟨hres, h.2.1 (1 / 2) 190 "A" [bhRecA]⟩

/- ### Lemmas on coverage accumulation -/

theorem accumBedRec_eq (rl : ℚ) (cov : String → ℚ) (r : BedRec)
    (h : r.gene_length ≠ 0) :
    accumBedRec rl cov r = some (accumBedRecP rl cov r) := by
  simp only [accumBedRec, h, if_false, ite_false, if_neg, not_false_iff]
  rfl

theorem accumBedRecP_delta (rl : ℚ) (cov : String → ℚ) (r : BedRec)
    (g : String) :
    accumBedRecP rl cov r g = cov g + accumBedRecP rl covZero r g := by
  by_cases hg : g = r.pangene_id <;> simp [accumBedRecP, covZero, hg]

theorem pangenomeCovP_linear (rl : ℚ) (recs : List BedRec) :
    ∀ (cov : String → ℚ) (g : String),
      pangenomeCovP rl recs cov g = cov g + pangenomeCovP rl recs covZero g := by
  induction recs with
  | nil => intro cov g; simp [pangenomeCovP, covZero]
  | cons r rest ih =>
    intro cov g
    have h1 : pangenomeCovP rl (r :: rest) cov g
        = pangenomeCovP rl rest (accumBedRecP rl cov r) g := rfl
    have h2 : pangenomeCovP rl (r :: rest) covZero g
        = pangenomeCovP rl rest (accumBedRecP rl covZero r) g := rfl
    rw [h1, h2, ih (accumBedRecP rl cov r) g, ih (accumBedRecP rl covZero r) g,
      accumBedRecP_delta rl cov r g]
    ring

theorem accumBedRecP_comm (rl : ℚ) (cov : String → ℚ) (a b : BedRec) :
    accumBedRecP rl (accumBedRecP rl cov a) b
      = accumBedRecP rl (accumBedRecP rl cov b) a := by
  funext g
  simp only [accumBedRecP]
  split_ifs <;> ring

theorem pangenomeCovP_perm (rl : ℚ) {l l2 : List BedRec} (h : l.Perm l2) :
    ∀ cov, pangenomeCovP rl l cov = pangenomeCovP rl l2 cov := by
  induction h with
  | nil => intro cov; rfl
  | cons x h ih =>
    intro cov
    simp only [pangenomeCovP, List.foldl_cons]
    exact ih (accumBedRecP rl cov x)
  | swap x y l =>
    intro cov
    simp only [pangenomeCovP, List.foldl_cons]
    rw [accumBedRecP_comm]
  | trans h1 h2 ih1 ih2 =>
    intro cov
    rw [ih1 cov, ih2 cov]

theorem compute_pangenome_coverage_eq (rl : ℚ) (recs : List BedRec) :
    ∀ cov, (∀ r ∈ recs, r.gene_length ≠ 0) →
      compute_pangenome_coverage rl recs cov = some (pangenomeCovP rl recs cov) := by
  induction recs with
  | nil => intro cov h; rfl
  | cons r rest ih =>
    intro cov h
    have hr : r.gene_length ≠ 0 := h r (by simp)
    have hstep := accumBedRec_eq rl cov r hr
    simp only [compute_pangenome_coverage, List.foldlM_cons, hstep,
      Option.bind_eq_bind, Option.some_bind]
    exact ih (accumBedRecP rl cov r) (fun x hx => h x (by simp [hx]))

/-- C5: compute_pangenome_coverage adds reads times read length over gene
length into the accumulator entry of each record's pangene id, and the
accumulation is associative and commutative across batches: it agrees with
its pure fold whenever every gene length is positive, the fold of a
concatenation of two batches starting from the empty accumulator is the
pointwise sum of the two batches' independent partial accumulators, and the
fold is invariant under any permutation of the records. -/
theorem coverage_accumulation_merge (rl : ℚ) :
    (∀ recs cov, (∀ r ∈ recs, r.gene_length ≠ 0) →
        compute_pangenome_coverage rl recs cov = some (pangenomeCovP rl recs cov))
    ∧ (∀ l1 l2 g, pangenomeCovP rl (l1 ++ l2) covZero g
        = pangenomeCovP rl l1 covZero g + pangenomeCovP rl l2 covZero g)
    ∧ (∀ l l2, l.Perm l2 →
        pangenomeCovP rl l covZero = pangenomeCovP rl l2 covZero) := by
  refine ⟨fun recs cov h => compute_pangenome_coverage_eq rl recs cov h, ?_, ?_⟩
  · intro l1 l2 g
    have h1 : pangenomeCovP rl (l1 ++ l2) covZero
        = pangenomeCovP rl l2 (pangenomeCovP rl l1 covZero) := by
      simp [pangenomeCovP, List.foldl_append]
    rw [h1, pangenomeCovP_linear rl l2 (pangenomeCovP rl l1 covZero) g]
  · intro l l2 h
    exact pangenomeCovP_perm rl h covZero

/-- Witness for C5: a concrete batch record accumulates through the option
layer, and swapping two concrete records does not change the result. -/
theorem coverage_accumulation_merge_witness :
    compute_pangenome_coverage 100 [bedR1] covZero
        = some (pangenomeCovP 100 [bedR1] covZero)
    ∧ pangenomeCovP 100 [bedR1, bedR2] covZero
        = pangenomeCovP 100 [bedR2, bedR1] covZero := by
  refine ⟨(coverage_accumulation_merge 100).1 [bedR1] covZero (by decide),
    (coverage_accumulation_merge 100).2.2 [bedR1, bedR2] [bedR2, bedR1] ?_⟩
  exact List.Perm.swap bedR2 bedR1 []

/- ### MarkerNormalizer claim -/

/-- C6: every row write_pangene_coverage emits carries copy number equal to
coverage over the baseline when the baseline is positive and 0 otherwise; in
particular with a zero marker baseline every emitted copy number is 0 (the
computation is total: no NaN, no error). -/
theorem copy_number_zero_baseline (m : List (String × ℚ)) (baseline : ℚ) :
    (∀ row ∈ write_pangene_coverage m baseline,
        row.2.2 = if 0 < baseline then row.2.1 / baseline else 0)
    ∧ (baseline = 0 →
        ∀ row ∈ write_pangene_coverage m baseline, row.2.2 = 0) := by
  constructor
  · intro row hrow
    simp only [write_pangene_coverage, List.mem_map] at hrow
    obtain ⟨p, hp, rfl⟩ := hrow
    rfl
  · intro h0 row hrow
    simp only [write_pangene_coverage, List.mem_map] at hrow
    obtain ⟨p, hp, rfl⟩ := hrow
    simp [h0]

/-- Witness for C6: a concrete cluster with baseline 0 reports copy number 0
for its pangene. -/
theorem copy_number_zero_baseline_witness :
    ("g1", (5 : ℚ), (0 : ℚ)) ∈ write_pangene_coverage [("g1", 5)] 0
    ∧ (("g1", (5 : ℚ), (0 : ℚ)) : String × ℚ × ℚ).2.2 = 0 := by
  have hmem : ("g1", (5 : ℚ), (0 : ℚ)) ∈ write_pangene_coverage [("g1", 5)] 0 := by
    simp [write_pangene_coverage, List.insertionSort, List.orderedInsert]
  exact ⟨hmem, (copy_number_zero_baseline [("g1", 5)] 0).2 rfl _ hmem⟩

/- ### ConsensusCaller claim -/

/-- C7: for one non-header pileup line, parse_vcf sets the reference count to
forward-ref plus reverse-ref, the alternate count to forward-alt plus
reverse-alt and the depth to their sum, chooses the consensus allele by the
first matching rule of the specification (depth zero gives NA, reference
count at least alternate count gives the reference allele, an empty
alternate list gives NA, otherwise the first listed alternate), and sets the
reference frequency to NA at depth zero and to ref over depth otherwise; in
particular a line listing no alternate alleles but carrying winning
alternate counts resolves to NA without raising. -/
theorem parse_vcf_line_spec (refId refPos refAllele : String)
    (altField : List String) (c0 c1 c2 c3 : Nat) :
    (parse_vcf_line refId refPos refAllele altField [c0, c1, c2, c3]).count_ref
        = c0 + c1
    ∧ (parse_vcf_line refId refPos refAllele altField [c0, c1, c2, c3]).count_alt
        = c2 + c3
    ∧ (parse_vcf_line refId refPos refAllele altField [c0, c1, c2, c3]).depth
        = (c0 + c1) + (c2 + c3)
    ∧ (parse_vcf_line refId refPos refAllele altField [c0, c1, c2, c3]).cons_allele
        = specConsensus ((c0 + c1) + (c2 + c3)) (c0 + c1) (c2 + c3) refAllele
            (altField.erase "<X>")
    ∧ (parse_vcf_line refId refPos refAllele altField [c0, c1, c2, c3]).ref_freq
        = (if (c0 + c1) + (c2 + c3) = 0 then none
           else some (((c0 + c1 : Nat) : ℚ) / (((c0 + c1) + (c2 + c3) : Nat) : ℚ)))
    ∧ (altField.erase "<X>" = [] → c0 + c1 < c2 + c3 →
        (parse_vcf_line refId refPos refAllele altField [c0, c1, c2, c3]).cons_allele
          = "NA") := by
  have hsum : c0 + (c1 + (c2 + (c3 + 0))) = (c0 + c1) + (c2 + c3) := by ring
  have hrefsum : c0 + (c1 + 0) = c0 + c1 := by ring
  have hle2 : (c2 + (c3 + 0) ≤ c0 + (c1 + 0)) ↔ ((c2 + c3) ≤ (c0 + c1)) := by omega
  have hcons : (parse_vcf_line refId refPos refAllele altField [c0, c1, c2, c3]).cons_allele
      = (if c0 + (c1 + (c2 + (c3 + 0))) = 0 then "NA"
         else if c2 + (c3 + 0) ≤ c0 + (c1 + 0) then refAllele
         else if (altField.erase "<X>").length = 0 then "NA"
         else (altField.erase "<X>").headD "") := rfl
  have h4 : (parse_vcf_line refId refPos refAllele altField [c0, c1, c2, c3]).cons_allele
      = specConsensus ((c0 + c1) + (c2 + c3)) (c0 + c1) (c2 + c3) refAllele
          (altField.erase "<X>") := by
    rw [hcons]
    simp only [hsum, hle2, specConsensus]
    rcases altField.erase "<X>" with _ | ⟨a, as⟩
    · simp
    · simp
  have hfreq : (parse_vcf_line refId refPos refAllele altField [c0, c1, c2, c3]).ref_freq
      = (if c0 + (c1 + (c2 + (c3 + 0))) = 0 then none
         else some (((c0 + (c1 + 0) : Nat) : ℚ)
                    / ((c0 + (c1 + (c2 + (c3 + 0))) : Nat) : ℚ))) := rfl
  refine ⟨?_, ?_, ?_, h4, ?_, ?_⟩
  · show c0 + (c1 + 0) = c0 + c1
    omega
  · show c2 + (c3 + 0) = c2 + c3
    omega
  · show c0 + (c1 + (c2 + (c3 + 0))) = (c0 + c1) + (c2 + c3)
    omega
  · rw [hfreq]
    simp only [hsum, hrefsum]
  · intro h1 h2
    rw [h4]
    have hne : ¬ ((c0 + c1) + (c2 + c3) = 0) := by omega
    have hle : ¬ (c2 + c3 ≤ c0 + c1) := by omega
    simp [specConsensus, hne, hle, h1]

/-- Witness for C7: a line whose alternate-allele field is only the no-alt
sentinel but whose alternate counts win yields consensus NA and reference
frequency 1/6. -/
theorem parse_vcf_line_spec_witness :
    (parse_vcf_line "chr1" "42" "A" ["<X>"] [1, 0, 3, 2]).cons_allele = "NA"
    ∧ (parse_vcf_line "chr1" "42" "A" ["<X>"] [1, 0, 3, 2]).ref_freq
        = some (1 / 6) := by
  have h := parse_vcf_line_spec "chr1" "42" "A" ["<X>"] 1 0 3 2
  refine ⟨h.2.2.2.2.2 (by decide) (by decide), ?_⟩
  rw [h.2.2.2.2.1]
  norm_num

/- ### Read-length estimation claim -/

theorem sampleLengths_eq_take (f : List Nat) :
    ∀ i, i ≤ 50000 → sampleLengths i f = f.take (50000 - i) := by
  induction f with
  | nil => intro i h; simp [sampleLengths]
  | cons a rest ih =>
    intro i h
    by_cases hi : i = 50000
    · simp [sampleLengths, hi]
    · have h1 : i + 1 ≤ 50000 := by omega
      have h2 : 50000 - i = (50000 - (i + 1)) + 1 := by omega
      rw [show sampleLengths i (a :: rest) = a :: sampleLengths (i + 1) rest from by
        simp [sampleLengths, hi]]
      rw [ih (i + 1) h1, h2, List.take_succ_cons]

/-- C9 amended: get_read_length returns the arithmetic mean query length of
the records it samples, but the 50,000-record cap applies per bam file (the
enumeration index resets for every file), not to the total across files: the
collected sample is the concatenation of each file's first 50,000 records. -/
theorem get_read_length_mean_per_file_cap (files : List (List Nat)) :
    (get_read_length files
      = (if files.flatMap (fun f => f.take 50000) = [] then none
         else some (((files.flatMap (fun f => f.take 50000)).map
                      (fun n : Nat => (n : ℚ))).sum
                    / ((files.flatMap (fun f => f.take 50000)).length : ℚ))))
    ∧ ∀ f ∈ files, sampleLengths 0 f = f.take 50000
        ∧ (sampleLengths 0 f).length ≤ 50000 := by
  have hs : ∀ f : List Nat, sampleLengths 0 f = f.take 50000 := fun f =>
    sampleLengths_eq_take f 0 (by omega)
  constructor
  · simp [get_read_length, hs]
  · intro f hf
    refine ⟨hs f, ?_⟩
    rw [hs f]
    exact List.length_take_le 50000 f

/-- Witness for C9 (amended): a two-record file is averaged whole. -/
theorem get_read_length_mean_per_file_cap_witness :
    get_read_length [[5, 7]] = some 6
    ∧ ([5, 7] ∈ [[5, 7]] → sampleLengths 0 [5, 7] = [5, 7].take 50000) := by
  have h := get_read_length_mean_per_file_cap [[5, 7]]
  have hflat : ([[5, 7]].flatMap fun f => List.take 50000 f) = [5, 7] := by decide
  constructor
  · rw [h.1, hflat, if_neg (by decide)]
    norm_num
  · intro hm
    exact (h.2 [5, 7] hm).1

/-- Counterexample for C9 as stated: with two bam files of 50,001 records
each, 100,000 records are sampled in total (50,000 from each file), more
than the claimed overall cap of 50,000; the returned mean 150 averages both
files' samples, not a 50,000-record sample of the stream (whose first
50,000 records all have length 100). -/
theorem get_read_length_total_cap_counterexample :
    ((([List.replicate 50001 100, List.replicate 50001 200]).flatMap
        (fun f => sampleLengths 0 f)).length = 100000)
    ∧ get_read_length [List.replicate 50001 100, List.replicate 50001 200]
        = some 150
    ∧ get_read_length [List.replicate 50001 100, List.replicate 50001 200]
        ≠ some 100 := by
  have hs : ∀ f : List Nat, sampleLengths 0 f = f.take 50000 := fun f =>
    sampleLengths_eq_take f 0 (by omega)
  have h1 : (List.replicate 50001 (100 : Nat)).take 50000
      = List.replicate 50000 100 := by
    rw [List.take_replicate]
    congr 1
  have h2 : (List.replicate 50001 (200 : Nat)).take 50000
      = List.replicate 50000 200 := by
    rw [List.take_replicate]
    congr 1
  have hflat : ([List.replicate 50001 100, List.replicate 50001 200]).flatMap
      (fun f => sampleLengths 0 f)
      = List.replicate 50000 100 ++ List.replicate 50000 200 := by
    rw [show ([List.replicate 50001 100, List.replicate 50001 200]).flatMap
        (fun f => sampleLengths 0 f)
        = sampleLengths 0 (List.replicate 50001 100)
          ++ (sampleLengths 0 (List.replicate 50001 200) ++ []) from rfl]
    rw [hs, hs, h1, h2, List.append_nil]
  have hlen : (List.replicate 50000 (100 : Nat)
      ++ List.replicate 50000 200).length = 100000 := by
    rw [List.length_append, List.length_replicate, List.length_replicate]
  have hne : List.replicate 50000 (100 : Nat) ++ List.replicate 50000 200 ≠ [] := by
    apply List.ne_nil_of_length_pos
    rw [hlen]
    norm_num
  have hmean : get_read_length [List.replicate 50001 100, List.replicate 50001 200]
      = some 150 := by
    simp only [get_read_length, hflat]
    rw [if_neg hne, Option.some_inj]
    rw [List.map_append, List.map_replicate, List.map_replicate,
      List.sum_append, List.sum_replicate, List.sum_replicate, hlen,
      nsmul_eq_mul, nsmul_eq_mul]
    norm_num
  refine ⟨by rw [hflat]; exact hlen, hmean, ?_⟩
  rw [hmean]
  intro hcontra
  have := Option.some.inj hcontra
  norm_num at this

end PhyloCNV
